import Mathlib

/-!
Shallow embedding of the validation and storage core of a block-lattice
ledger: the four block variants with their hashing, signing and
proof-of-work rules, and the storage engine with its insert transaction.

Byte strings are lists of byte values; 64-bit and 128-bit machine words are
naturals reduced modulo the word size where overflow matters.  The
cryptographic primitives (Blake2b digests and ed25519 signatures) are kept
abstract behind a `Crypto` record of pure functions, matching the adapter
boundary of the source.
-/

/-- Block digest of 32 bytes, the canonical identifier of a block. -/
abbrev Hash : Type := List Nat

/-- An ed25519 public key of 32 bytes, doubling as an account identifier. -/
abbrev PubKey : Type := List Nat

/-- An ed25519 signature of 64 bytes. -/
abbrev Signature : Type := List Nat

/-- Proof-of-work nonce, a 64-bit word. -/
abbrev Work : Type := Nat

/-- Account balance, a 128-bit value. -/
abbrev Balance : Type := Nat

/-- Little-endian byte decomposition of a 64-bit word (Work::as_ref). -/
def u64LEBytes (w : Nat) : List Nat := (List.range 8).map (fun i => w / 256 ^ i % 256)

/-- Little-endian byte decomposition of a 128-bit word (Balance::as_ref). -/
def u128LEBytes (w : Nat) : List Nat := (List.range 16).map (fun i => w / 256 ^ i % 256)

/-- Little-endian 64-bit interpretation of a byte list (LE::read_u64). -/
def leU64 (bs : List Nat) : Nat := bs.foldr (fun b acc => b + 256 * acc) 0

/-- Wrapping 128-bit addition (Balance addition). -/
def balAdd (a b : Balance) : Balance := (a + b) % 2 ^ 128

/-- Wrapping 128-bit subtraction (Balance subtraction, unchecked in the source). -/
def balSub (a b : Balance) : Balance := (a % 2 ^ 128 + (2 ^ 128 - b % 2 ^ 128)) % 2 ^ 128

/-- Error kinds returned by verification and insertion (errors::Failure). -/
inductive Failure where
| Duplicate
| Signature
| Fork
| Work
| Received
| ZeroSend
| OverSend
| Missing
| Invalid
| Unreachable
deriving DecidableEq

/-- The cryptographic primitives adapter: a variable-output-length digest over
a sequence of byte strings, well-formedness of key and signature byte layouts
(PublicKey::from_bytes / Signature::from_bytes), and the ed25519 verification
predicate.  All are abstract pure functions. -/
structure Crypto where
  blake2b : Nat → List (List Nat) → List Nat
  pubkeyValid : PubKey → Bool
  sigValid : Signature → Bool
  edVerify : PubKey → Hash → Signature → Bool

/-- Work digest of 8 bytes (WorkHash). -/
structure WorkHash where
  bytes : List Nat
deriving DecidableEq

/-- WorkHash::RAI_WORK_THRESHOLD. -/
def RAI_WORK_THRESHOLD : Nat := 0xffffffc000000000

/-- WorkHash::verify: the little-endian 64-bit value must strictly exceed the
threshold. -/
def WorkHash.verify (w : WorkHash) : Bool := decide (RAI_WORK_THRESHOLD < leU64 w.bytes)

/-- Open block: first block of an account's chain. -/
structure OpenTransaction where
  account : PubKey
  source : Hash
  representative : PubKey
  work : Work
  signature : Signature
deriving DecidableEq

/-- Send block: appends to the sender's chain; `balance` is the resulting
balance of the sender's account after this send. -/
structure SendTransaction where
  previous : Hash
  balance : Balance
  destination : PubKey
  work : Work
  signature : Signature
deriving DecidableEq

/-- Receive block: appends to the receiver's chain, consuming a Send. -/
structure ReceiveTransaction where
  previous : Hash
  source : Hash
  work : Work
  signature : Signature
deriving DecidableEq

/-- Change block: changes the voting representative without moving funds. -/
structure ChangeTransaction where
  previous : Hash
  representative : PubKey
  work : Work
  signature : Signature
deriving DecidableEq

/-- Tagged union over the four block variants. -/
inductive Transaction where
| Open (o : OpenTransaction)
| Send (s : SendTransaction)
| Receive (r : ReceiveTransaction)
| Change (c : ChangeTransaction)
deriving DecidableEq

/-- RaiHashImpl::hash_impl: digest the ordered element list to 32 bytes. -/
def hash_impl (C : Crypto) (elements : List (List Nat)) : Hash := C.blake2b 32 elements

def OpenTransaction.hash_elements (t : OpenTransaction) : List (List Nat) :=
  [t.source, t.representative, t.account]

def OpenTransaction.hash (C : Crypto) (t : OpenTransaction) : Hash := hash_impl C t.hash_elements

def SendTransaction.hash_elements (t : SendTransaction) : List (List Nat) :=
  [t.previous, t.destination, u128LEBytes t.balance]

def SendTransaction.hash (C : Crypto) (t : SendTransaction) : Hash := hash_impl C t.hash_elements

def ReceiveTransaction.hash_elements (t : ReceiveTransaction) : List (List Nat) :=
  [t.previous, t.source]

def ReceiveTransaction.hash (C : Crypto) (t : ReceiveTransaction) : Hash :=
  hash_impl C t.hash_elements

def ChangeTransaction.hash_elements (t : ChangeTransaction) : List (List Nat) :=
  [t.previous, t.representative]

def ChangeTransaction.hash (C : Crypto) (t : ChangeTransaction) : Hash :=
  hash_impl C t.hash_elements

def Transaction.hash (C : Crypto) : Transaction → Hash
| .Open o => o.hash C
| .Send s => s.hash C
| .Receive r => r.hash C
| .Change c => c.hash C

/-- RaiWorkImpl::work_impl: 8-byte digest of the nonce bytes followed by the
block's work element. -/
def work_impl (C : Crypto) (element : List Nat) (w : Work) : WorkHash :=
  ⟨C.blake2b 8 [u64LEBytes w, element]⟩

/-- RaiWork::verify_work (provided trait method): Ok iff the work digest of
the stored nonce passes WorkHash::verify. -/
def verify_work_impl (C : Crypto) (element : List Nat) (w : Work) : Except Failure Unit :=
  if (work_impl C element w).verify then Except.ok () else Except.error Failure.Work

def Transaction.work_element : Transaction → List Nat
| .Open o => o.account
| .Send s => s.previous
| .Receive r => r.previous
| .Change c => c.previous

/-- The block's stored nonce (RaiWorkImpl::work_value). -/
def Transaction.work_value : Transaction → Work
| .Open o => o.work
| .Send s => s.work
| .Receive r => r.work
| .Change c => c.work

/-- RaiWork::work_calculate: work digest for a candidate nonce. -/
def Transaction.work_calculate (C : Crypto) (t : Transaction) (w : Work) : WorkHash :=
  work_impl C t.work_element w

/-- RaiWork::work_validate: work digest for the stored nonce. -/
def Transaction.work_validate (C : Crypto) (t : Transaction) : WorkHash :=
  work_impl C t.work_element t.work_value

def Transaction.verify_work (C : Crypto) (t : Transaction) : Except Failure Unit :=
  verify_work_impl C t.work_element t.work_value

def OpenTransaction.verify_work (C : Crypto) (t : OpenTransaction) : Except Failure Unit :=
  verify_work_impl C t.account t.work

def SendTransaction.verify_work (C : Crypto) (t : SendTransaction) : Except Failure Unit :=
  verify_work_impl C t.previous t.work

def ReceiveTransaction.verify_work (C : Crypto) (t : ReceiveTransaction) : Except Failure Unit :=
  verify_work_impl C t.previous t.work

def ChangeTransaction.verify_work (C : Crypto) (t : ChangeTransaction) : Except Failure Unit :=
  verify_work_impl C t.previous t.work

/-- Decode key and signature bytes and check the signature over a message;
any failure surfaces as the Signature error. -/
def checkSigRaw (C : Crypto) (k : PubKey) (msg : Hash) (sg : Signature) : Except Failure Unit :=
  if C.pubkeyValid k then
    if C.sigValid sg then
      if C.edVerify k msg sg then Except.ok () else Except.error Failure.Signature
    else Except.error Failure.Signature
  else Except.error Failure.Signature

/-- Outcome of a storage computation: a returned value, an error return, a
reached unreachable-code panic, or a non-terminating loop. -/
inductive VRes (α : Type) where
| ok (a : α)
| err (f : Failure)
| panic
| diverge
deriving DecidableEq

def VRes.andThen {α β : Type} : VRes α → (α → VRes β) → VRes β
| .ok a, f => f a
| .err e, _ => .err e
| .panic, _ => .panic
| .diverge, _ => .diverge

def VRes.map {α β : Type} (f : α → β) : VRes α → VRes β
| .ok a => .ok (f a)
| .err e => .err e
| .panic => .panic
| .diverge => .diverge

def VRes.ofExcept {α : Type} : Except Failure α → VRes α
| .ok a => .ok a
| .error f => .err f

/-- Option::ok_or followed by the question-mark operator. -/
def VRes.okOr {α : Type} (f : Failure) : VRes (Option α) → VRes α
| .ok none => .err f
| .ok (some a) => .ok a
| .err e => .err e
| .panic => .panic
| .diverge => .diverge

/-- The ledger state (struct Storage): the transaction index caching resulting
balances, the per-account head pointers, and the unspent Send set.  The two
maps are association lists where insertion prepends, so a later binding for a
key shadows an earlier one, matching HashMap::insert. -/
structure Storage where
  transactions : List (Hash × (Transaction × Balance))
  heads : List (PubKey × Hash)
  unspent : List Hash
deriving DecidableEq

def lookupA {α : Type} : List (List Nat × α) → List Nat → Option α
| [], _ => none
| (k, v) :: rest, key => if key = k then some v else lookupA rest key

def Storage.lookup (s : Storage) (h : Hash) : Option Transaction :=
  (lookupA s.transactions h).map Prod.fst

def Storage.find_head (s : Storage) (k : PubKey) : Option Hash := lookupA s.heads k

def Storage.find_balance (s : Storage) (h : Hash) : Option Balance :=
  (lookupA s.transactions h).map Prod.snd

def Storage.is_unspent (s : Storage) (h : Hash) : Bool := decide (h ∈ s.unspent)

/-- The loop of BlockStorage::find_open, following previous links until an
Open block is found.  A missing link hits unreachable code; the fuel bounds
the walk, with exhaustion modelling the loop never terminating. -/
def Storage.find_open_loop (s : Storage) : Nat → Hash → VRes OpenTransaction
| 0, _ => .diverge
| fuel + 1, h =>
  match s.lookup h with
  | some (.Open o) => .ok o
  | some (.Send t) => s.find_open_loop fuel t.previous
  | some (.Receive t) => s.find_open_loop fuel t.previous
  | some (.Change t) => s.find_open_loop fuel t.previous
  | none => .panic

/-- BlockStorage::find_open: the first lookup may fail (returning no block);
afterwards the walk starts from the looked-up block's previous link.  The
fuel given to the loop exceeds the number of stored entries, which is enough
for every terminating walk. -/
def Storage.find_open (s : Storage) (h : Hash) : VRes (Option OpenTransaction) :=
  match s.lookup h with
  | none => .ok none
  | some (.Open _) => (s.find_open_loop (s.transactions.length + 1) h).map some
  | some (.Send t) => (s.find_open_loop (s.transactions.length + 1) t.previous).map some
  | some (.Receive t) => (s.find_open_loop (s.transactions.length + 1) t.previous).map some
  | some (.Change t) => (s.find_open_loop (s.transactions.length + 1) t.previous).map some

/-- BlockStorage::find_key: the account of the chain's Open block. -/
def Storage.find_key (s : Storage) (h : Hash) : VRes (Option PubKey) :=
  (s.find_open h).map (fun o? => o?.map (fun o => o.account))

def OpenTransaction.verify_sig (C : Crypto) (t : OpenTransaction) : Except Failure Unit :=
  checkSigRaw C t.account (t.hash C) t.signature

/-- OpenTransaction::verify_parent: the source must be a Send destined for
this account, and it must still be unspent. -/
def OpenTransaction.verify_parent (st : Storage) (t : OpenTransaction) : Except Failure Unit :=
  match st.lookup t.source with
  | none => Except.error Failure.Missing
  | some (.Send sd) =>
    if sd.destination ≠ t.account then Except.error Failure.Invalid
    else if st.is_unspent t.source then Except.ok () else Except.error Failure.Received
  | some _ => Except.error Failure.Invalid

def OpenTransaction.verify (C : Crypto) (st : Storage) (t : OpenTransaction) : VRes Unit :=
  (VRes.ofExcept (t.verify_sig C)).andThen fun _ =>
    (VRes.ofExcept (t.verify_work C)).andThen fun _ =>
      VRes.ofExcept (t.verify_parent st)

/-- SendTransaction::verify_sig: resolve the signing key via find_key on the
previous link, then check the signature. -/
def SendTransaction.verify_sig (C : Crypto) (st : Storage) (t : SendTransaction) : VRes PubKey :=
  (VRes.okOr Failure.Missing (st.find_key t.previous)).andThen fun pk =>
    (VRes.ofExcept (checkSigRaw C pk (t.hash C) t.signature)).andThen fun _ => .ok pk

/-- SendTransaction::verify_balance: the declared resulting balance must not
exceed the balance cached at the previous block. -/
def SendTransaction.verify_balance (st : Storage) (t : SendTransaction) : Except Failure Unit :=
  match st.find_balance t.previous with
  | none => Except.error Failure.Unreachable
  | some bal => if bal < t.balance then Except.error Failure.OverSend else Except.ok ()

def SendTransaction.verify (C : Crypto) (st : Storage) (t : SendTransaction) : VRes Unit :=
  (VRes.ofExcept (t.verify_work C)).andThen fun _ =>
    (t.verify_sig C st).andThen fun _ =>
      VRes.ofExcept (t.verify_balance st)

def ReceiveTransaction.verify_sig (C : Crypto) (st : Storage) (t : ReceiveTransaction) :
    VRes PubKey :=
  (VRes.okOr Failure.Missing (st.find_key t.previous)).andThen fun pk =>
    (VRes.ofExcept (checkSigRaw C pk (t.hash C) t.signature)).andThen fun _ => .ok pk

/-- ReceiveTransaction::verify_parent: the source must be a Send destined for
the resolved signing key, and it must still be unspent. -/
def ReceiveTransaction.verify_parent (st : Storage) (t : ReceiveTransaction) (pk : PubKey) :
    Except Failure Unit :=
  match st.lookup t.source with
  | none => Except.error Failure.Missing
  | some (.Send sd) =>
    if sd.destination ≠ pk then Except.error Failure.Invalid
    else if st.is_unspent t.source then Except.ok () else Except.error Failure.Received
  | some _ => Except.error Failure.Invalid

def ReceiveTransaction.verify (C : Crypto) (st : Storage) (t : ReceiveTransaction) : VRes Unit :=
  (VRes.ofExcept (t.verify_work C)).andThen fun _ =>
    (t.verify_sig C st).andThen fun pk =>
      VRes.ofExcept (t.verify_parent st pk)

def ChangeTransaction.verify_sig (C : Crypto) (st : Storage) (t : ChangeTransaction) : VRes Unit :=
  (VRes.okOr Failure.Missing (st.find_key t.previous)).andThen fun pk =>
    VRes.ofExcept (checkSigRaw C pk (t.hash C) t.signature)

def ChangeTransaction.verify (C : Crypto) (st : Storage) (t : ChangeTransaction) : VRes Unit :=
  (t.verify_sig C st).andThen fun _ => VRes.ofExcept (t.verify_work C)

/-- Transaction::verify: dispatch to the variant's verification routine. -/
def Transaction.verify (C : Crypto) (st : Storage) : Transaction → VRes Unit
| .Open o => o.verify C st
| .Send s => s.verify C st
| .Receive r => r.verify C st
| .Change c => c.verify C st

/-- The (balance, owning key, required parent) derivation inside
Storage::insert, in source evaluation order. -/
def Storage.insertDerive (C : Crypto) (s : Storage) :
    Transaction → VRes (Balance × PubKey × Option Hash)
| .Open o =>
  match s.find_balance o.source with
  | none => .err Failure.Unreachable
  | some bal =>
    match s.lookup o.source with
    | none => .err Failure.Unreachable
    | some (.Send sd) =>
      match s.find_balance sd.previous with
      | none => .err Failure.Unreachable
      | some prev_bal => .ok (balSub prev_bal bal, o.account, none)
    | some _ => .err Failure.Invalid
| .Receive r =>
  match s.find_balance r.source with
  | none => .err Failure.Unreachable
  | some bal =>
    match s.lookup r.source with
    | none => .err Failure.Unreachable
    | some (.Send sd) =>
      match s.find_balance sd.previous with
      | none => .err Failure.Unreachable
      | some prev_bal =>
        match s.find_balance r.previous with
        | none => .err Failure.Unreachable
        | some prevOwn =>
          (VRes.okOr Failure.Unreachable (s.find_key r.previous)).andThen fun key =>
            .ok (balAdd prevOwn (balSub prev_bal bal), key, some r.previous)
    | some _ => .err Failure.Invalid
| .Send sd =>
  (VRes.okOr Failure.Unreachable (s.find_key sd.previous)).andThen fun key =>
    .ok (sd.balance, key, some sd.previous)
| .Change c =>
  match s.find_balance c.previous with
  | none => .err Failure.Unreachable
  | some bal =>
    (VRes.okOr Failure.Unreachable (s.find_key c.previous)).andThen fun key =>
      .ok (bal, key, some c.previous)

/-- Outcome of Storage::insert: a success return (never produced), an error
return carrying the ledger state at that point, a panic inside a chain walk,
a chain walk that never terminates, or the unconditional panic reached right
after the commit writes. -/
inductive InsertResult where
| ok (s : Storage)
| err (f : Failure) (s : Storage)
| panicHelper (s : Storage)
| diverge (s : Storage)
| panicCommit (s : Storage)
deriving DecidableEq

/-- Storage::insert: verify, derive balance/key/parent, check the fork
invariant, then commit into transactions and heads - followed by the
unconditional panic in the source.  The unspent set is never touched. -/
def Storage.insert (C : Crypto) (s : Storage) (tx : Transaction) : InsertResult :=
  match tx.verify C s with
  | .err f => .err f s
  | .panic => .panicHelper s
  | .diverge => .diverge s
  | .ok _ =>
    match s.insertDerive C tx with
    | .err f => .err f s
    | .panic => .panicHelper s
    | .diverge => .diverge s
    | .ok (bal, key, parent) =>
      if s.find_head key ≠ parent then .err Failure.Fork s
      else
        .panicCommit
          ⟨(tx.hash C, (tx, bal)) :: s.transactions, (key, tx.hash C) :: s.heads, s.unspent⟩

/-- Storage::new / Storage::new_test: a ledger seeded with a single
pre-validated genesis Open block and its declared balance. -/
def Storage.new_with (C : Crypto) (g : OpenTransaction) (bal : Balance) : Storage :=
  ⟨[(g.hash C, (Transaction.Open g, bal))], [(g.account, g.hash C)], []⟩

/-- A concrete instantiation of the cryptographic adapter used to evaluate
the engine on closed inputs: the digest folds the input sizes and content
into its low byte and saturates the remaining bytes, so every work digest
clears the threshold; keys and signatures always decode and verify. -/
def cryptoA : Crypto :=
  ⟨fun n parts =>
      (n + parts.length + (parts.map (fun p => p.length + p.sum)).sum) % 256
        :: List.replicate (n - 1) 255,
   fun _ => true, fun _ => true, fun _ _ _ => true⟩

/-- genesis::BALANCE, the maximum 128-bit value. -/
def GEN_BALANCE : Balance := 2 ^ 128 - 1

/-- A concrete genesis Open block (the shape of genesis::LIVE_BLOCK and
genesis::TEST_BLOCK: account and representative coincide). -/
def gOpen : OpenTransaction :=
  ⟨List.replicate 32 1, List.replicate 32 2, List.replicate 32 1, 0, List.replicate 64 0⟩

/-- A ledger seeded only with the genesis Open block. -/
def ledger0 : Storage := Storage.new_with cryptoA gOpen GEN_BALANCE

def gHash : Hash := gOpen.hash cryptoA

/-- A Send from the genesis account: previous is the genesis hash and the
declared resulting balance is one below the genesis balance. -/
def send0 : SendTransaction :=
  ⟨gHash, 2 ^ 128 - 2, List.replicate 32 5, 0, List.replicate 64 0⟩

def sendTx0 : Transaction := Transaction.Send send0

def sendHash0 : Hash := sendTx0.hash cryptoA

/-- The ledger state written by the commit step of inserting `send0` into
`ledger0` (the state insert holds when it reaches the trailing panic). -/
def ledger1 : Storage :=
  ⟨(sendHash0, (sendTx0, send0.balance)) :: ledger0.transactions,
   (gOpen.account, sendHash0) :: ledger0.heads,
   ledger0.unspent⟩

/-- An Open block for the destination account of `send0`, sourcing it. -/
def open0 : OpenTransaction :=
  ⟨List.replicate 32 5, sendHash0, List.replicate 32 5, 0, List.replicate 64 0⟩

def openTx0 : Transaction := Transaction.Open open0


/-- The previous-link walk from a stored hash reaches an Open block. -/
inductive ChainRoot (s : Storage) : Hash → OpenTransaction → Prop where
| base {h : Hash} {o : OpenTransaction} (hl : s.lookup h = some (.Open o)) : ChainRoot s h o
| send {h : Hash} {t : SendTransaction} {o : OpenTransaction}
    (hl : s.lookup h = some (.Send t)) (hc : ChainRoot s t.previous o) : ChainRoot s h o
| receive {h : Hash} {t : ReceiveTransaction} {o : OpenTransaction}
    (hl : s.lookup h = some (.Receive t)) (hc : ChainRoot s t.previous o) : ChainRoot s h o
| change {h : Hash} {t : ChangeTransaction} {o : OpenTransaction}
    (hl : s.lookup h = some (.Change t)) (hc : ChainRoot s t.previous o) : ChainRoot s h o

/-- As ChainRoot, also recording the hashes visited on the walk. -/
inductive ChainPath (s : Storage) : Hash → OpenTransaction → List Hash → Prop where
| base {h : Hash} {o : OpenTransaction} (hl : s.lookup h = some (.Open o)) : ChainPath s h o [h]
| send {h : Hash} {t : SendTransaction} {o : OpenTransaction} {p : List Hash}
    (hl : s.lookup h = some (.Send t)) (hc : ChainPath s t.previous o p) : ChainPath s h o (h :: p)
| receive {h : Hash} {t : ReceiveTransaction} {o : OpenTransaction} {p : List Hash}
    (hl : s.lookup h = some (.Receive t)) (hc : ChainPath s t.previous o p) :
    ChainPath s h o (h :: p)
| change {h : Hash} {t : ChangeTransaction} {o : OpenTransaction} {p : List Hash}
    (hl : s.lookup h = some (.Change t)) (hc : ChainPath s t.previous o p) : ChainPath s h o (h :: p)

/-- The chain invariant: every stored block's previous-link walk terminates
at an Open block present in the index. -/
def ChainOk (s : Storage) : Prop := ∀ h tx, s.lookup h = some tx → ∃ o, ChainRoot s h o

lemma chainPath_of_chainRoot {s : Storage} {h : Hash} {o : OpenTransaction}
    (hcr : ChainRoot s h o) : ∃ p, ChainPath s h o p := by
  induction hcr with
  | base hl => exact ⟨_, .base hl⟩
  | send hl hc ih => obtain ⟨p, hp⟩ := ih; exact ⟨_, .send hl hp⟩
  | receive hl hc ih => obtain ⟨p, hp⟩ := ih; exact ⟨_, .receive hl hp⟩
  | change hl hc ih => obtain ⟨p, hp⟩ := ih; exact ⟨_, .change hl hp⟩

lemma chainRoot_of_chainPath {s : Storage} {h : Hash} {o : OpenTransaction} {p : List Hash}
    (hp : ChainPath s h o p) : ChainRoot s h o := by
  induction hp with
  | base hl => exact .base hl
  | send hl hc ih => exact .send hl ih
  | receive hl hc ih => exact .receive hl ih
  | change hl hc ih => exact .change hl ih

lemma find_open_loop_of_path {s : Storage} {h : Hash} {o : OpenTransaction} {p : List Hash}
    (hp : ChainPath s h o p) : ∀ fuel, p.length ≤ fuel → s.find_open_loop fuel h = .ok o := by
  induction hp with
  | base hl =>
    intro fuel hf
    cases fuel with
    | zero => simp at hf
    | succ n => simp [Storage.find_open_loop, hl]
  | send hl hc ih =>
    intro fuel hf
    cases fuel with
    | zero => simp at hf
    | succ n =>
      simp only [List.length_cons, Nat.succ_le_succ_iff] at hf
      simp only [Storage.find_open_loop, hl]
      exact ih n hf
  | receive hl hc ih =>
    intro fuel hf
    cases fuel with
    | zero => simp at hf
    | succ n =>
      simp only [List.length_cons, Nat.succ_le_succ_iff] at hf
      simp only [Storage.find_open_loop, hl]
      exact ih n hf
  | change hl hc ih =>
    intro fuel hf
    cases fuel with
    | zero => simp at hf
    | succ n =>
      simp only [List.length_cons, Nat.succ_le_succ_iff] at hf
      simp only [Storage.find_open_loop, hl]
      exact ih n hf

lemma chainPath_extract {s : Storage} {o : OpenTransaction} {h : Hash} {p : List Hash}
    (hp : ChainPath s h o p) : ∀ y ∈ p, ∃ q, q.Sublist p ∧ ChainPath s y o q := by
  induction hp with
  | base hl =>
    intro y hy
    rw [List.mem_singleton] at hy
    subst hy
    exact ⟨_, List.Sublist.refl _, .base hl⟩
  | send hl hc ih =>
    intro y hy
    rcases List.mem_cons.mp hy with rfl | hy2
    · exact ⟨_, List.Sublist.refl _, .send hl hc⟩
    · obtain ⟨q, hq, hcp⟩ := ih y hy2
      exact ⟨q, hq.trans (List.sublist_cons_self _ _), hcp⟩
  | receive hl hc ih =>
    intro y hy
    rcases List.mem_cons.mp hy with rfl | hy2
    · exact ⟨_, List.Sublist.refl _, .receive hl hc⟩
    · obtain ⟨q, hq, hcp⟩ := ih y hy2
      exact ⟨q, hq.trans (List.sublist_cons_self _ _), hcp⟩
  | change hl hc ih =>
    intro y hy
    rcases List.mem_cons.mp hy with rfl | hy2
    · exact ⟨_, List.Sublist.refl _, .change hl hc⟩
    · obtain ⟨q, hq, hcp⟩ := ih y hy2
      exact ⟨q, hq.trans (List.sublist_cons_self _ _), hcp⟩

lemma chainPath_nodup {s : Storage} {o : OpenTransaction} {h : Hash} {p : List Hash}
    (hp : ChainPath s h o p) : ∃ q, q.Nodup ∧ ChainPath s h o q := by
  induction hp with
  | base hl => exact ⟨_, List.nodup_singleton _, .base hl⟩
  | @send h t o p hl hc ih =>
    obtain ⟨q, hnd, hcp⟩ := ih
    by_cases hm : h ∈ q
    · obtain ⟨q2, hsub, hcp2⟩ := chainPath_extract hcp h hm
      exact ⟨q2, hnd.sublist hsub, hcp2⟩
    · exact ⟨h :: q, List.nodup_cons.mpr ⟨hm, hnd⟩, .send hl hcp⟩
  | @receive h t o p hl hc ih =>
    obtain ⟨q, hnd, hcp⟩ := ih
    by_cases hm : h ∈ q
    · obtain ⟨q2, hsub, hcp2⟩ := chainPath_extract hcp h hm
      exact ⟨q2, hnd.sublist hsub, hcp2⟩
    · exact ⟨h :: q, List.nodup_cons.mpr ⟨hm, hnd⟩, .receive hl hcp⟩
  | @change h t o p hl hc ih =>
    obtain ⟨q, hnd, hcp⟩ := ih
    by_cases hm : h ∈ q
    · obtain ⟨q2, hsub, hcp2⟩ := chainPath_extract hcp h hm
      exact ⟨q2, hnd.sublist hsub, hcp2⟩
    · exact ⟨h :: q, List.nodup_cons.mpr ⟨hm, hnd⟩, .change hl hcp⟩

lemma lookupA_mem {α : Type} {l : List (List Nat × α)} {k : List Nat} {v : α}
    (hl : lookupA l k = some v) : k ∈ l.map Prod.fst := by
  induction l with
  | nil => simp [lookupA] at hl
  | cons kv rest ih =>
    obtain ⟨k1, v1⟩ := kv
    by_cases hk : k = k1
    · simp [hk]
    · rw [lookupA, if_neg hk] at hl
      simp [ih hl]

lemma lookup_mem_keys {s : Storage} {h : Hash} {tx : Transaction}
    (hl : s.lookup h = some tx) : h ∈ s.transactions.map Prod.fst := by
  obtain ⟨pr, hpr, -⟩ := Option.map_eq_some'.mp hl
  exact lookupA_mem hpr

lemma chainPath_mem_keys {s : Storage} {o : OpenTransaction} {h : Hash} {p : List Hash}
    (hp : ChainPath s h o p) : ∀ x ∈ p, x ∈ s.transactions.map Prod.fst := by
  induction hp with
  | base hl =>
    intro x hx
    rw [List.mem_singleton] at hx
    subst hx
    exact lookup_mem_keys hl
  | send hl hc ih =>
    intro x hx
    rcases List.mem_cons.mp hx with rfl | hx2
    · exact lookup_mem_keys hl
    · exact ih x hx2
  | receive hl hc ih =>
    intro x hx
    rcases List.mem_cons.mp hx with rfl | hx2
    · exact lookup_mem_keys hl
    · exact ih x hx2
  | change hl hc ih =>
    intro x hx
    rcases List.mem_cons.mp hx with rfl | hx2
    · exact lookup_mem_keys hl
    · exact ih x hx2

lemma find_open_loop_root {s : Storage} {h : Hash} {o : OpenTransaction}
    (hcr : ChainRoot s h o) :
    ∃ o2, s.find_open_loop (s.transactions.length + 1) h = .ok o2 ∧ ChainRoot s h o2 := by
  obtain ⟨p, hp⟩ := chainPath_of_chainRoot hcr
  obtain ⟨q, hnd, hq⟩ := chainPath_nodup hp
  have hsub : q ⊆ s.transactions.map Prod.fst := fun x hx => chainPath_mem_keys hq x hx
  have hlen : q.length ≤ s.transactions.length := by
    have := (hnd.subperm hsub).length_le
    simpa using this
  exact ⟨o, find_open_loop_of_path hq _ (Nat.le_succ_of_le hlen), chainRoot_of_chainPath hq⟩

lemma chainRoot_inv_send {s : Storage} {t : SendTransaction} {h : Hash} {o : OpenTransaction}
    (hcr : ChainRoot s h o) (htx : s.lookup h = some (.Send t)) : ChainRoot s t.previous o := by
  cases hcr with
  | base hl => rw [htx] at hl; exact absurd hl (by simp)
  | send hl hc => rw [htx] at hl; injection hl with h2; injection h2 with h3; cases h3; exact hc
  | receive hl hc => rw [htx] at hl; exact absurd hl (by simp)
  | change hl hc => rw [htx] at hl; exact absurd hl (by simp)

lemma chainRoot_inv_receive {s : Storage} {t : ReceiveTransaction} {h : Hash}
    {o : OpenTransaction} (hcr : ChainRoot s h o) (htx : s.lookup h = some (.Receive t)) :
    ChainRoot s t.previous o := by
  cases hcr with
  | base hl => rw [htx] at hl; exact absurd hl (by simp)
  | send hl hc => rw [htx] at hl; exact absurd hl (by simp)
  | receive hl hc => rw [htx] at hl; injection hl with h2; injection h2 with h3; cases h3; exact hc
  | change hl hc => rw [htx] at hl; exact absurd hl (by simp)

lemma chainRoot_inv_change {s : Storage} {t : ChangeTransaction} {h : Hash}
    {o : OpenTransaction} (hcr : ChainRoot s h o) (htx : s.lookup h = some (.Change t)) :
    ChainRoot s t.previous o := by
  cases hcr with
  | base hl => rw [htx] at hl; exact absurd hl (by simp)
  | send hl hc => rw [htx] at hl; exact absurd hl (by simp)
  | receive hl hc => rw [htx] at hl; exact absurd hl (by simp)
  | change hl hc => rw [htx] at hl; injection hl with h2; injection h2 with h3; cases h3; exact hc

/-- Under the chain invariant, find_open terminates without hitting
unreachable code: a present hash walks to an Open root, an absent one
returns nothing. -/
lemma find_open_cases {s : Storage} (hok : ChainOk s) (h : Hash) :
    (s.lookup h = none → s.find_open h = .ok none) ∧
    (∀ tx, s.lookup h = some tx → ∃ o, s.find_open h = .ok (some o) ∧ ChainRoot s h o) := by
  constructor
  · intro hn
    simp [Storage.find_open, hn]
  · intro tx htx
    obtain ⟨o, hcr⟩ := hok h tx htx
    cases tx with
    | Open o2 =>
      obtain ⟨o3, hloop, hcr3⟩ := find_open_loop_root (ChainRoot.base (o := o2) htx)
      exact ⟨o3, by simp [Storage.find_open, htx, hloop, VRes.map], hcr3⟩
    | Send t =>
      obtain ⟨o3, hloop, hcr3⟩ := find_open_loop_root (chainRoot_inv_send hcr htx)
      refine ⟨o3, by simp [Storage.find_open, htx, hloop, VRes.map], .send htx hcr3⟩
    | Receive t =>
      obtain ⟨o3, hloop, hcr3⟩ := find_open_loop_root (chainRoot_inv_receive hcr htx)
      refine ⟨o3, by simp [Storage.find_open, htx, hloop, VRes.map], .receive htx hcr3⟩
    | Change t =>
      obtain ⟨o3, hloop, hcr3⟩ := find_open_loop_root (chainRoot_inv_change hcr htx)
      refine ⟨o3, by simp [Storage.find_open, htx, hloop, VRes.map], .change htx hcr3⟩

/-- A storage computation that neither panics nor loops forever. -/
def VRes.noPanic {α : Type} (x : VRes α) : Prop :=
  (∃ a, x = .ok a) ∨ (∃ f, x = .err f)

lemma noPanic_ofExcept {α : Type} (e : Except Failure α) : (VRes.ofExcept e).noPanic := by
  cases e with
  | ok a => exact Or.inl ⟨a, rfl⟩
  | error f => exact Or.inr ⟨f, rfl⟩

lemma noPanic_andThen {α β : Type} {x : VRes α} {f : α → VRes β}
    (hx : x.noPanic) (hf : ∀ a, (f a).noPanic) : (x.andThen f).noPanic := by
  rcases hx with ⟨a, rfl⟩ | ⟨e, rfl⟩
  · exact hf a
  · exact Or.inr ⟨e, rfl⟩

lemma noPanic_map {α β : Type} {x : VRes α} (g : α → β) (hx : x.noPanic) :
    (x.map g).noPanic := by
  rcases hx with ⟨a, rfl⟩ | ⟨e, rfl⟩
  · exact Or.inl ⟨g a, rfl⟩
  · exact Or.inr ⟨e, rfl⟩

lemma noPanic_okOr {α : Type} {x : VRes (Option α)} (f : Failure) (hx : x.noPanic) :
    (VRes.okOr f x).noPanic := by
  rcases hx with ⟨a, rfl⟩ | ⟨e, rfl⟩
  · cases a with
    | none => exact Or.inr ⟨f, rfl⟩
    | some v => exact Or.inl ⟨v, rfl⟩
  · exact Or.inr ⟨e, rfl⟩

lemma find_open_noPanic {s : Storage} (hok : ChainOk s) (h : Hash) :
    (s.find_open h).noPanic := by
  cases htx : s.lookup h with
  | none => exact Or.inl ⟨none, (find_open_cases hok h).1 htx⟩
  | some tx =>
    obtain ⟨o, ho, -⟩ := (find_open_cases hok h).2 tx htx
    exact Or.inl ⟨some o, ho⟩

lemma find_key_noPanic {s : Storage} (hok : ChainOk s) (h : Hash) :
    (s.find_key h).noPanic :=
  noPanic_map _ (find_open_noPanic hok h)

lemma verify_noPanic {C : Crypto} {s : Storage} (hok : ChainOk s) (tx : Transaction) :
    (tx.verify C s).noPanic := by
  cases tx with
  | Open o =>
    exact noPanic_andThen (noPanic_ofExcept _) fun _ =>
      noPanic_andThen (noPanic_ofExcept _) fun _ => noPanic_ofExcept _
  | Send t =>
    refine noPanic_andThen (noPanic_ofExcept _) fun _ => ?_
    refine noPanic_andThen ?_ fun _ => noPanic_ofExcept _
    exact noPanic_andThen (noPanic_okOr _ (find_key_noPanic hok _)) fun pk =>
      noPanic_andThen (noPanic_ofExcept _) fun _ => Or.inl ⟨pk, rfl⟩
  | Receive t =>
    refine noPanic_andThen (noPanic_ofExcept _) fun _ => ?_
    refine noPanic_andThen ?_ fun pk => noPanic_ofExcept _
    exact noPanic_andThen (noPanic_okOr _ (find_key_noPanic hok _)) fun pk =>
      noPanic_andThen (noPanic_ofExcept _) fun _ => Or.inl ⟨pk, rfl⟩
  | Change t =>
    refine noPanic_andThen ?_ fun _ => noPanic_ofExcept _
    exact noPanic_andThen (noPanic_okOr _ (find_key_noPanic hok _)) fun pk =>
      noPanic_ofExcept _

lemma insertDerive_noPanic {C : Crypto} {s : Storage} (hok : ChainOk s) (tx : Transaction) :
    (s.insertDerive C tx).noPanic := by
  cases tx with
  | Open o =>
    cases h1 : s.find_balance o.source with
    | none => exact Or.inr ⟨Failure.Unreachable, by simp [Storage.insertDerive, h1]⟩
    | some bal =>
      cases h2 : s.lookup o.source with
      | none => exact Or.inr ⟨Failure.Unreachable, by simp [Storage.insertDerive, h1, h2]⟩
      | some tx2 =>
        cases tx2 with
        | Send sd =>
          cases h3 : s.find_balance sd.previous with
          | none => exact Or.inr ⟨Failure.Unreachable, by simp [Storage.insertDerive, h1, h2, h3]⟩
          | some prev_bal =>
            exact Or.inl ⟨(balSub prev_bal bal, o.account, none),
              by simp [Storage.insertDerive, h1, h2, h3]⟩
        | Open o2 => exact Or.inr ⟨Failure.Invalid, by simp [Storage.insertDerive, h1, h2]⟩
        | Receive r2 => exact Or.inr ⟨Failure.Invalid, by simp [Storage.insertDerive, h1, h2]⟩
        | Change c2 => exact Or.inr ⟨Failure.Invalid, by simp [Storage.insertDerive, h1, h2]⟩
  | Receive r =>
    cases h1 : s.find_balance r.source with
    | none => exact Or.inr ⟨Failure.Unreachable, by simp [Storage.insertDerive, h1]⟩
    | some bal =>
      cases h2 : s.lookup r.source with
      | none => exact Or.inr ⟨Failure.Unreachable, by simp [Storage.insertDerive, h1, h2]⟩
      | some tx2 =>
        cases tx2 with
        | Send sd =>
          cases h3 : s.find_balance sd.previous with
          | none => exact Or.inr ⟨Failure.Unreachable, by simp [Storage.insertDerive, h1, h2, h3]⟩
          | some prev_bal =>
            cases h4 : s.find_balance r.previous with
            | none =>
              exact Or.inr ⟨Failure.Unreachable, by simp [Storage.insertDerive, h1, h2, h3, h4]⟩
            | some prevOwn =>
              have heq : s.insertDerive C (.Receive r) =
                  (VRes.okOr Failure.Unreachable (s.find_key r.previous)).andThen
                    (fun key =>
                      .ok (balAdd prevOwn (balSub prev_bal bal), key, some r.previous)) := by
                simp [Storage.insertDerive, h1, h2, h3, h4]
              rw [heq]
              exact noPanic_andThen (noPanic_okOr _ (find_key_noPanic hok _)) fun key =>
                Or.inl ⟨_, rfl⟩
        | Open o2 => exact Or.inr ⟨Failure.Invalid, by simp [Storage.insertDerive, h1, h2]⟩
        | Receive r2 => exact Or.inr ⟨Failure.Invalid, by simp [Storage.insertDerive, h1, h2]⟩
        | Change c2 => exact Or.inr ⟨Failure.Invalid, by simp [Storage.insertDerive, h1, h2]⟩
  | Send sd =>
    have heq : s.insertDerive C (.Send sd) =
        (VRes.okOr Failure.Unreachable (s.find_key sd.previous)).andThen
          (fun key => .ok (sd.balance, key, some sd.previous)) := rfl
    rw [heq]
    exact noPanic_andThen (noPanic_okOr _ (find_key_noPanic hok _)) fun key => Or.inl ⟨_, rfl⟩
  | Change c =>
    cases h1 : s.find_balance c.previous with
    | none => exact Or.inr ⟨Failure.Unreachable, by simp [Storage.insertDerive, h1]⟩
    | some bal =>
      have heq : s.insertDerive C (.Change c) =
          (VRes.okOr Failure.Unreachable (s.find_key c.previous)).andThen
            (fun key => .ok (bal, key, some c.previous)) := by
        simp [Storage.insertDerive, h1]
      rw [heq]
      exact noPanic_andThen (noPanic_okOr _ (find_key_noPanic hok _)) fun key => Or.inl ⟨_, rfl⟩

lemma insert_never_ok_aux (C : Crypto) (s : Storage) (tx : Transaction) (s2 : Storage) :
    s.insert C tx ≠ .ok s2 := by
  unfold Storage.insert
  split
  · simp
  · simp
  · simp
  · split
    · simp
    · simp
    · simp
    · split
      · simp
      · simp

lemma insert_cases_aux (C : Crypto) (s : Storage) (tx : Transaction) (hok : ChainOk s) :
    (∃ f, s.insert C tx = .err f s) ∨
    (∃ bal key, s.insert C tx = .panicCommit
      ⟨(tx.hash C, (tx, bal)) :: s.transactions, (key, tx.hash C) :: s.heads, s.unspent⟩) := by
  rcases verify_noPanic (C := C) hok tx with ⟨a, ha⟩ | ⟨f, hf⟩
  · rcases insertDerive_noPanic (C := C) hok tx with ⟨⟨bal, key, parent⟩, hd⟩ | ⟨f, hd⟩
    · by_cases hfork : s.find_head key = parent
      · right
        exact ⟨bal, key, by simp [Storage.insert, ha, hd, hfork]⟩
      · left
        exact ⟨Failure.Fork, by simp [Storage.insert, ha, hd, hfork]⟩
    · left
      exact ⟨f, by simp [Storage.insert, ha, hd]⟩
  · left
    exact ⟨f, by simp [Storage.insert, hf]⟩

lemma insert_err_state_aux (C : Crypto) (s : Storage) (tx : Transaction) (f : Failure)
    (s2 : Storage) (h : s.insert C tx = .err f s2) : s2 = s := by
  unfold Storage.insert at h
  repeat' split at h
  all_goals first
    | (injection h with h1 h2; exact h2.symm)
    | cases h

lemma lookup_some_of_find_open {s : Storage} {h : Hash} {o : OpenTransaction}
    (hfo : s.find_open h = .ok (some o)) : ∃ tx, s.lookup h = some tx := by
  cases hl : s.lookup h with
  | some tx => exact ⟨tx, rfl⟩
  | none =>
    unfold Storage.find_open at hfo
    rw [hl] at hfo
    simp at hfo

lemma find_open_some_of_find_key {s : Storage} {h : Hash} {pk : PubKey}
    (hk : s.find_key h = .ok (some pk)) :
    ∃ o, s.find_open h = .ok (some o) ∧ o.account = pk := by
  unfold Storage.find_key at hk
  cases ho : s.find_open h with
  | ok o? =>
    rw [ho] at hk
    simp only [VRes.map] at hk
    cases o? with
    | none => simp at hk
    | some o =>
      refine ⟨o, rfl, ?_⟩
      simpa using hk
  | err f => rw [ho] at hk; simp [VRes.map] at hk
  | panic => rw [ho] at hk; simp [VRes.map] at hk
  | diverge => rw [ho] at hk; simp [VRes.map] at hk

lemma send_verify_sig_shape {C : Crypto} {st : Storage} {t : SendTransaction} {pk : PubKey}
    (h : t.verify_sig C st = .ok pk) :
    st.find_key t.previous = .ok (some pk) ∧
    checkSigRaw C pk (t.hash C) t.signature = .ok () := by
  unfold SendTransaction.verify_sig at h
  cases hk : st.find_key t.previous with
  | ok o? =>
    cases o? with
    | none => rw [hk] at h; simp [VRes.okOr, VRes.andThen] at h
    | some pk2 =>
      rw [hk] at h
      simp only [VRes.okOr, VRes.andThen] at h
      cases hc : checkSigRaw C pk2 (t.hash C) t.signature with
      | ok u =>
        rw [hc] at h
        simp only [VRes.ofExcept, VRes.andThen] at h
        injection h with h2
        subst h2
        exact ⟨rfl, hc⟩
      | error f =>
        rw [hc] at h
        simp [VRes.ofExcept, VRes.andThen] at h
  | err f => rw [hk] at h; simp [VRes.okOr, VRes.andThen] at h
  | panic => rw [hk] at h; simp [VRes.okOr, VRes.andThen] at h
  | diverge => rw [hk] at h; simp [VRes.okOr, VRes.andThen] at h

lemma chainOk_new_with (C : Crypto) (g : OpenTransaction) (bal : Balance) :
    ChainOk (Storage.new_with C g bal) := by
  intro h tx hl
  simp only [Storage.lookup, Storage.new_with, lookupA] at hl
  by_cases hh : h = g.hash C
  · refine ⟨g, ChainRoot.base ?_⟩
    simp only [Storage.lookup, Storage.new_with, lookupA]
    rw [if_pos hh]
    rfl
  · rw [if_neg hh] at hl
    simp at hl

lemma chainOk_ledger0 : ChainOk ledger0 := chainOk_new_with cryptoA gOpen GEN_BALANCE

/-- A structurally corrupt ledger: it stores one Change block whose previous
link is absent from the index, so the chain walk hits unreachable code. -/
def corruptLedger : Storage :=
  ⟨[(List.replicate 32 9,
     (Transaction.Change ⟨List.replicate 32 8, List.replicate 32 7, 0, List.replicate 64 0⟩, 0))],
   [], []⟩

/-- A Change block whose previous is the corrupt ledger's stored hash. -/
def chg0 : ChangeTransaction :=
  ⟨List.replicate 32 9, List.replicate 32 7, 0, List.replicate 64 0⟩

/-- C1: on the code as written the scenario never succeeds.  Inserting the
Send from the genesis account commits it and then hits the unconditional
panic instead of returning success, and inserting the follow-up Open for the
new account fails with Received, because the commit step never adds the
Send's hash to the unspent set. -/
theorem insert_send_then_open_no_success :
    ledger0.insert cryptoA sendTx0 = .panicCommit ledger1 ∧
    ledger1.insert cryptoA openTx0 = .err Failure.Received ledger1 :=
  ⟨by decide, by decide⟩

/-- C2 (amended): insert never returns success for any state and any
transaction; on a state satisfying the chain invariant every execution either
returns an error carrying the unchanged state, or commits the block into the
transactions map, updates the head, and reaches the unconditional panic. -/
theorem insert_no_success (C : Crypto) (s : Storage) (tx : Transaction) :
    (∀ s2, s.insert C tx ≠ .ok s2) ∧
    (ChainOk s →
      (∃ f, s.insert C tx = .err f s) ∨
      (∃ bal key, s.insert C tx = .panicCommit
        ⟨(tx.hash C, (tx, bal)) :: s.transactions, (key, tx.hash C) :: s.heads, s.unspent⟩)) :=
  ⟨fun s2 => insert_never_ok_aux C s tx s2, fun hok => insert_cases_aux C s tx hok⟩

/-- Witness for C2: on the genesis-seeded ledger the disjunction is
established concretely via the invariant proof. -/
theorem insert_no_success_witness :
    (∃ f, ledger0.insert cryptoA sendTx0 = .err f ledger0) ∨
    (∃ bal key, ledger0.insert cryptoA sendTx0 = .panicCommit
      ⟨(sendTx0.hash cryptoA, (sendTx0, bal)) :: ledger0.transactions,
       (key, sendTx0.hash cryptoA) :: ledger0.heads, ledger0.unspent⟩) :=
  (insert_no_success cryptoA ledger0 sendTx0).2 chainOk_ledger0

/-- C2 counterexample: on a corrupt state, insert panics inside the chain
walk before writing anything - it neither returns an error nor reaches the
after-commit panic. -/
theorem insert_panic_before_commit_on_corrupt_state :
    corruptLedger.insert cryptoA (.Change chg0) = .panicHelper corruptLedger ∧
    ¬ ((∃ f, corruptLedger.insert cryptoA (.Change chg0) = .err f corruptLedger) ∨
       (∃ s2, corruptLedger.insert cryptoA (.Change chg0) = .panicCommit s2)) := by
  have hins : corruptLedger.insert cryptoA (.Change chg0) = .panicHelper corruptLedger := by
    decide
  refine ⟨hins, ?_⟩
  rintro (⟨f, hf⟩ | ⟨s2, hs⟩)
  · rw [hins] at hf; cases hf
  · rw [hins] at hs; cases hs

/-- C3: the commit step of insert does not maintain the unspent set - after
the Send commits (reaching the trailing panic), the unspent set is unchanged
and the Send's hash is not unspent. -/
theorem insert_commit_skips_unspent :
    ledger0.insert cryptoA sendTx0 = .panicCommit ledger1 ∧
    ledger1.unspent = ledger0.unspent ∧
    ledger1.is_unspent sendHash0 = false :=
  ⟨by decide, rfl, by decide⟩

/-- C4: verify_work accepts a block exactly when the little-endian 64-bit
value of work_calculate at the stored nonce strictly exceeds the threshold,
and a value equal to the threshold is rejected with the Work error. -/
theorem verify_work_iff (C : Crypto) (tx : Transaction) :
    ((tx.verify_work C = .ok ()) ↔
      RAI_WORK_THRESHOLD < leU64 (tx.work_calculate C tx.work_value).bytes) ∧
    (leU64 (tx.work_calculate C tx.work_value).bytes = RAI_WORK_THRESHOLD →
      tx.verify_work C = .error Failure.Work) := by
  constructor
  · unfold Transaction.verify_work verify_work_impl WorkHash.verify Transaction.work_calculate
    by_cases hlt :
        RAI_WORK_THRESHOLD < leU64 (work_impl C tx.work_element tx.work_value).bytes
    · simp [hlt]
    · simp [hlt]
  · intro heq
    unfold Transaction.work_calculate at heq
    unfold Transaction.verify_work verify_work_impl WorkHash.verify
    simp [heq]

/-- A digest adapter whose work hashes hit the threshold exactly. -/
def cryptoEq : Crypto :=
  ⟨fun _ _ => [0, 0, 0, 0, 0xc0, 0xff, 0xff, 0xff], fun _ => true, fun _ => true,
   fun _ _ _ => true⟩

/-- Witness for C4: a work digest exactly at the threshold is rejected. -/
theorem verify_work_iff_witness :
    Transaction.verify_work cryptoEq (.Open gOpen) = .error Failure.Work :=
  (verify_work_iff cryptoEq (.Open gOpen)).2 (by decide)

/-- C5: consuming the Send with an Open fails even on first insertion: the
commit of the Send never placed its hash in the unspent set, so the Open is
rejected with Received immediately (rather than only on a second attempt). -/
theorem open_first_insert_received :
    ledger1.is_unspent sendHash0 = false ∧
    ledger1.insert cryptoA openTx0 = .err Failure.Received ledger1 :=
  ⟨by decide, by decide⟩

/-- C6: once verification and derivation have succeeded, insert fails with
Fork exactly when the owning account's current head differs from the required
parent, and the error carries the unchanged state. -/
theorem insert_fork_iff (C : Crypto) (s : Storage) (tx : Transaction) (bal : Balance)
    (key : PubKey) (parent : Option Hash)
    (hv : tx.verify C s = .ok ())
    (hd : s.insertDerive C tx = .ok (bal, key, parent)) :
    (s.insert C tx = .err Failure.Fork s) ↔ s.find_head key ≠ parent := by
  constructor
  · intro hins
    intro heq
    have h2 := hins
    simp [Storage.insert, hv, hd, heq] at h2
  · intro hne
    simp [Storage.insert, hv, hd, hne]

/-- Witness for C6: the genesis-seeded ledger and the Send from genesis pass
verification and derivation; the head equals the parent, so no Fork. -/
theorem insert_fork_iff_witness :
    sendTx0.verify cryptoA ledger0 = .ok () ∧
    ledger0.insertDerive cryptoA sendTx0 = .ok (send0.balance, gOpen.account, some gHash) ∧
    ((ledger0.insert cryptoA sendTx0 = .err Failure.Fork ledger0) ↔
      ledger0.find_head gOpen.account ≠ some gHash) :=
  ⟨by decide, by decide,
   insert_fork_iff cryptoA ledger0 sendTx0 send0.balance gOpen.account (some gHash)
     (by decide) (by decide)⟩

/-- C7: for a Send whose work and signature checks pass, verification fails
with OverSend exactly when the declared resulting balance strictly exceeds
the balance cached at the previous block; otherwise verification succeeds. -/
theorem send_verify_oversend_iff (C : Crypto) (st : Storage) (t : SendTransaction) (pk : PubKey)
    (hw : t.verify_work C = .ok ())
    (hs : t.verify_sig C st = .ok pk) :
    ∃ bal, st.find_balance t.previous = some bal ∧
      ((t.verify C st = .err Failure.OverSend) ↔ t.balance > bal) ∧
      (t.balance ≤ bal → t.verify C st = .ok ()) := by
  obtain ⟨hk, hc⟩ := send_verify_sig_shape hs
  obtain ⟨o, ho, hacc⟩ := find_open_some_of_find_key hk
  obtain ⟨tx2, hl⟩ := lookup_some_of_find_open ho
  obtain ⟨pr, hpr, -⟩ := Option.map_eq_some'.mp hl
  have hb : st.find_balance t.previous = some pr.2 := by
    unfold Storage.find_balance
    rw [hpr]
    rfl
  have hred : t.verify C st =
      VRes.ofExcept (if pr.2 < t.balance then .error Failure.OverSend else .ok ()) := by
    simp [SendTransaction.verify, hw, hs, SendTransaction.verify_balance, hb,
      VRes.ofExcept, VRes.andThen]
  refine ⟨pr.2, hb, ?_, ?_⟩
  · rw [hred]
    by_cases hcase : pr.2 < t.balance
    · simp [hcase, VRes.ofExcept]
    · simp [hcase, VRes.ofExcept]
  · intro hle
    rw [hred]
    simp [Nat.not_lt.mpr hle, VRes.ofExcept]

/-- Witness for C7: the Send from genesis passes both checks, its previous
has a cached balance, and it does not over-send. -/
theorem send_verify_oversend_iff_witness :
    ∃ bal, ledger0.find_balance send0.previous = some bal ∧
      ((send0.verify cryptoA ledger0 = .err Failure.OverSend) ↔ send0.balance > bal) ∧
      (send0.balance ≤ bal → send0.verify cryptoA ledger0 = .ok ()) :=
  send_verify_oversend_iff cryptoA ledger0 send0 gOpen.account rfl (by decide)

/-- C8: whenever insert returns an error, the carried state is the unchanged
input state: transactions, heads and unspent are all untouched. -/
theorem insert_err_unchanged (C : Crypto) (s : Storage) (tx : Transaction) (f : Failure)
    (s2 : Storage) (h : s.insert C tx = .err f s2) :
    s2.transactions = s.transactions ∧ s2.heads = s.heads ∧ s2.unspent = s.unspent := by
  have hstate := insert_err_state_aux C s tx f s2 h
  subst hstate
  exact ⟨rfl, rfl, rfl⟩

/-- Witness for C8: an Open referencing an absent source fails with Missing
and leaves the maps unchanged. -/
theorem insert_err_unchanged_witness :
    ledger0.insert cryptoA openTx0 = .err Failure.Missing ledger0 ∧
    (ledger0.transactions = ledger0.transactions ∧ ledger0.heads = ledger0.heads ∧
      ledger0.unspent = ledger0.unspent) :=
  ⟨by decide, insert_err_unchanged cryptoA ledger0 openTx0 Failure.Missing ledger0 (by decide)⟩

/-- C9: every block hash is computed from the variant's semantic fields
only - blocks of the same variant agreeing on everything but work and
signature hash identically. -/
theorem hash_excludes_work_signature (C : Crypto) :
    (∀ (a : PubKey) (src : Hash) (rep : PubKey) (w w2 : Work) (sg sg2 : Signature),
      Transaction.hash C (.Open ⟨a, src, rep, w, sg⟩) =
        Transaction.hash C (.Open ⟨a, src, rep, w2, sg2⟩)) ∧
    (∀ (p : Hash) (b : Balance) (d : PubKey) (w w2 : Work) (sg sg2 : Signature),
      Transaction.hash C (.Send ⟨p, b, d, w, sg⟩) =
        Transaction.hash C (.Send ⟨p, b, d, w2, sg2⟩)) ∧
    (∀ (p src : Hash) (w w2 : Work) (sg sg2 : Signature),
      Transaction.hash C (.Receive ⟨p, src, w, sg⟩) =
        Transaction.hash C (.Receive ⟨p, src, w2, sg2⟩)) ∧
    (∀ (p : Hash) (rep : PubKey) (w w2 : Work) (sg sg2 : Signature),
      Transaction.hash C (.Change ⟨p, rep, w, sg⟩) =
        Transaction.hash C (.Change ⟨p, rep, w2, sg2⟩)) :=
  ⟨fun _ _ _ _ _ _ _ => rfl, fun _ _ _ _ _ _ _ => rfl,
   fun _ _ _ _ _ _ => rfl, fun _ _ _ _ _ _ => rfl⟩

/-- C10: under the chain invariant, find_open terminates on every input
hash - an absent hash yields nothing, a present one walks to an Open root of
its chain. -/
theorem find_open_terminates (s : Storage) (hok : ChainOk s) (h : Hash) :
    (s.lookup h = none → s.find_open h = .ok none) ∧
    (∀ tx, s.lookup h = some tx → ∃ o, s.find_open h = .ok (some o) ∧ ChainRoot s h o) :=
  find_open_cases hok h

/-- Witness for C10: on the genesis ledger, find_open at the genesis hash
returns its Open root. -/
theorem find_open_terminates_witness :
    ∃ o, ledger0.find_open gHash = .ok (some o) ∧ ChainRoot ledger0 gHash o :=
  (find_open_terminates ledger0 chainOk_ledger0 gHash).2 (.Open gOpen) (by decide)
